import Mathlib

/-!
# TBB4CppAD: a leasing pool of tape copies

Shallow embedding of `TBB4CppAD.h` (classes `tape_packet`, `tape_scoped_lock`,
`multithread_tape_manager`) and of the test program `test.cpp`.

Conventions of the embedding

* A pointer `tape_packet<T>*` is the index of the packet in `all_tape_packets`,
  a pointer `CppAD::ADFun<T>*` is the index of the tape in `tapes`.
* `size_t` values are natural numbers.  `std::vector::resize` bounds every size
  that occurs far below `2^63`, so no conversion to the queue's signed size type
  wraps around.
* The pool and the static `thread_specific_index` are passed explicitly as a
  `World`; the `owner` pointer of a `tape_scoped_lock` is this state passing.
* An operation that does not return is an error of type `Stuck`: `blocked` when
  the TBB queue makes the caller wait, `undefined` when the C++ has no defined
  behaviour (a pointer outside `all_tape_packets` is dereferenced).
* Header line 4 defines `TBB4CPPAD_VERBOSE`, so the code under that guard is
  compiled; `TBB4CPPAD_USE_PARALLEL_SETUP` is commented out, its code is not.
  `printf` output is not modelled, the reads that `printf` arguments perform are.
* Operations of different threads are interleaved as atomic steps: the queue of
  TBB is linearizable, a blocked `pop` takes its step once an item is there.
-/

namespace TBB4CppAD

/-- Reasons for an operation not to return. -/
inductive Stuck where
  | blocked
  | undefined
  deriving DecidableEq, Repr

/-! ## `tbb::concurrent_bounded_queue` and `tbb::combinable` -/

/-- The queue `tbb::concurrent_bounded_queue<T>`: first in, first out; `capacity = none`
is the unbounded capacity of a default-constructed queue. -/
structure concurrent_bounded_queue (α : Type) where
  capacity : Option Nat
  items : List α
  deriving DecidableEq, Repr

namespace concurrent_bounded_queue

variable {α : Type}

/-- A default-constructed queue. -/
def empty : concurrent_bounded_queue α := ⟨none, []⟩

/-- The member `set_capacity`. -/
def set_capacity (q : concurrent_bounded_queue α) (n : Nat) : concurrent_bounded_queue α :=
  { q with capacity := some n }

/-- Whether `push` has to wait: the queue holds as many items as its capacity. -/
def full (q : concurrent_bounded_queue α) : Bool :=
  match q.capacity with
  | none => false
  | some c => decide (c ≤ q.items.length)

/-- The member `push`: waits while the queue is full, then appends at the back. -/
def push (q : concurrent_bounded_queue α) (x : α) : Except Stuck (concurrent_bounded_queue α) :=
  if q.full then .error .blocked else .ok { q with items := q.items ++ [x] }

/-- The member `pop`: waits while the queue is empty, then removes the front item. -/
def pop (q : concurrent_bounded_queue α) : Except Stuck (α × concurrent_bounded_queue α) :=
  match q.items with
  | [] => .error .blocked
  | x :: rest => .ok (x, { q with items := rest })

end concurrent_bounded_queue

/-- The container `tbb::combinable<size_t>`: the thread-local elements created so far, as
pairs of a thread and its element. -/
structure combinable where
  slots : List (Nat × Nat)
  deriving DecidableEq, Repr

namespace combinable

/-- A default-constructed `combinable`: no thread has an element yet. -/
def empty : combinable := ⟨[]⟩

/-- The value read through `local()` on `thread`.  A thread without an element gets one
created by `size_t()`, which is zero. -/
def «local» (c : combinable) (thread : Nat) : Nat :=
  (c.slots.lookup thread).getD 0

/-- The assignment `local() = v` on `thread`. -/
def assign (c : combinable) (thread v : Nat) : combinable :=
  ⟨(thread, v) :: c.slots.filter (fun e => e.1 != thread)⟩

end combinable

/-! ## The classes of `TBB4CppAD.h` -/

/-- The class `tape_packet`: a thread number and a pointer to a tape. -/
structure tape_packet where
  thread_num : Nat
  tape : Nat
  deriving DecidableEq, Repr

/-- A `tape_packet` as `resize` creates it, before the loop assigns its members. -/
instance : Inhabited tape_packet := ⟨⟨0, 0⟩⟩

/-- The data members of `multithread_tape_manager`. -/
structure multithread_tape_manager (Tape : Type) where
  tapes : List Tape
  all_tape_packets : List tape_packet
  available_tape_packets : concurrent_bounded_queue Nat
  deriving DecidableEq, Repr

/-- The pool together with the static member `thread_specific_index`. -/
structure World (Tape : Type) where
  MTM : multithread_tape_manager Tape
  thread_specific_index : combinable
  deriving DecidableEq, Repr

/-- The class `tape_scoped_lock`: the held packet pointer `tp`. -/
structure tape_scoped_lock where
  tp : Nat
  deriving DecidableEq, Repr

/-- The member `std::vector::resize`. -/
def resize {α : Type} [Inhabited α] (v : List α) (n : Nat) : List α :=
  v.take n ++ List.replicate (n - v.length) default

/-- The loop `for(size_t i = 0; i < n; ++i) body`. -/
def forLoop {σ : Type} (n : Nat) (body : Nat → σ → σ) (s : σ) : σ :=
  (List.range n).foldl (fun acc i => body i acc) s

/-- The loop `for(size_t i = 0; i < n; ++i) body` with a body that may not return. -/
def forLoopM {σ : Type} (n : Nat) (body : Nat → σ → Except Stuck σ) (s : σ) : Except Stuck σ :=
  (List.range n).foldlM (fun acc i => body i acc) s

namespace multithread_tape_manager

variable {Tape : Type}

/-- The members before the constructor body runs. -/
def init : multithread_tape_manager Tape := ⟨[], [], concurrent_bounded_queue.empty⟩

/-- The member `setup_tapes`. -/
def setup_tapes [Inhabited Tape] (tape : Tape) (num_tapes : Nat)
    (m : multithread_tape_manager Tape) : multithread_tape_manager Tape :=
  let m1 := { m with tapes := resize m.tapes num_tapes }
  forLoop num_tapes (fun i m => { m with tapes := m.tapes.set i tape }) m1

/-- The member `setup_tape_packets`. -/
def setup_tape_packets (num_tapes : Nat)
    (m : multithread_tape_manager Tape) : Except Stuck (multithread_tape_manager Tape) :=
  let m1 := { m with all_tape_packets := resize m.all_tape_packets num_tapes }
  let m2 := forLoop num_tapes
    (fun i m => { m with all_tape_packets := m.all_tape_packets.set i ⟨i, i⟩ }) m1
  let m3 := { m2 with
    available_tape_packets := m2.available_tape_packets.set_capacity num_tapes }
  forLoopM num_tapes
    (fun i m => do
      let q ← m.available_tape_packets.push i
      pure { m with available_tape_packets := q }) m3

/-- The constructor `multithread_tape_manager(tape, num_tapes)`. -/
def construct [Inhabited Tape] (tape : Tape) (num_tapes : Nat) :
    Except Stuck (multithread_tape_manager Tape) :=
  setup_tape_packets num_tapes (setup_tapes tape num_tapes init)

end multithread_tape_manager

/-- The member `request_tape_packet`, called on `thread`. -/
def request_tape_packet {Tape : Type} (thread : Nat) (w : World Tape) :
    Except Stuck (Nat × World Tape) :=
  match w.MTM.available_tape_packets.pop with
  | .error e => .error e
  | .ok (ans_tape_packet, q) =>
    match w.MTM.all_tape_packets[ans_tape_packet]? with
    | none => .error .undefined
    | some pk =>
      .ok (ans_tape_packet,
        { MTM := { w.MTM with available_tape_packets := q },
          thread_specific_index := w.thread_specific_index.assign thread pk.thread_num })

/-- The member `release_tape_packet`. -/
def release_tape_packet {Tape : Type} (tp : Nat) (w : World Tape) :
    Except Stuck (Bool × World Tape) :=
  match w.MTM.all_tape_packets[tp]? with
  | none => .error .undefined
  | some _ =>
    match w.MTM.available_tape_packets.push tp with
    | .error e => .error e
    | .ok q => .ok (true, { w with MTM := { w.MTM with available_tape_packets := q } })

/-- The static member `thread_num`, called on `thread`. -/
def thread_num {Tape : Type} (thread : Nat) (w : World Tape) : Nat :=
  w.thread_specific_index.local thread

namespace tape_scoped_lock

variable {Tape : Type}

/-- The constructor `tape_scoped_lock(o)`, run on `thread`. -/
def construct (thread : Nat) (o : World Tape) : Except Stuck (tape_scoped_lock × World Tape) :=
  match request_tape_packet thread o with
  | .error e => .error e
  | .ok (p, o1) => .ok (⟨p⟩, o1)

/-- The destructor: the packet handed to `release_tape_packet` is `tp`. -/
def destruct (l : tape_scoped_lock) (o : World Tape) : Except Stuck (World Tape) :=
  match release_tape_packet l.tp o with
  | .error e => .error e
  | .ok (_, o1) => .ok o1

/-- The member `getTapePtr`: `tp->tape`. -/
def getTapePtr (l : tape_scoped_lock) (o : World Tape) : Option Nat :=
  (o.MTM.all_tape_packets[l.tp]?).map (fun pk => pk.tape)

/-- The member `operator->`: `tp->tape`. -/
def arrow (l : tape_scoped_lock) (o : World Tape) : Option Nat :=
  (o.MTM.all_tape_packets[l.tp]?).map (fun pk => pk.tape)

/-- The member `operator*`: the tape `*(tp->tape)`. -/
def star (l : tape_scoped_lock) (o : World Tape) : Option Tape :=
  (o.MTM.all_tape_packets[l.tp]?).bind (fun pk => o.MTM.tapes[pk.tape]?)

/-- The member `set_tape_packet`. -/
def set_tape_packet (l : tape_scoped_lock) (newtp : Nat) : tape_scoped_lock :=
  { l with tp := newtp }

end tape_scoped_lock

/-! ## Executions: leases being constructed and destructed -/

/-- A pool with the leases that are alive. -/
structure System (Tape : Type) where
  world : World Tape
  live : List tape_scoped_lock
  deriving DecidableEq, Repr

/-- One step of an execution: `acquire thread` constructs a `tape_scoped_lock` on `thread`,
`drop k` ends the scope of the live lease at position `k`. -/
inductive Step where
  | acquire (thread : Nat)
  | drop (k : Nat)
  deriving DecidableEq, Repr

/-- The state right after the constructor of the pool returned: no lease is alive and no
thread has asked for its index. -/
def fresh {Tape : Type} [Inhabited Tape] (tape : Tape) (num_tapes : Nat) :
    Except Stuck (System Tape) :=
  match multithread_tape_manager.construct tape num_tapes with
  | .error e => .error e
  | .ok m => .ok ⟨⟨m, combinable.empty⟩, []⟩

/-- The effect of one step.  Ending the scope of a lease that does not exist is not a step
of any execution. -/
def step {Tape : Type} (s : System Tape) : Step → Except Stuck (System Tape)
  | .acquire thread =>
    match tape_scoped_lock.construct thread s.world with
    | .error e => .error e
    | .ok (l, w) => .ok ⟨w, s.live ++ [l]⟩
  | .drop k =>
    match s.live[k]? with
    | none => .error .undefined
    | some l =>
      match l.destruct s.world with
      | .error e => .error e
      | .ok w => .ok ⟨w, s.live.eraseIdx k⟩

/-- The effect of a sequence of steps. -/
def run {Tape : Type} (s : System Tape) : List Step → Except Stuck (System Tape)
  | [] => .ok s
  | e :: es =>
    match step s e with
    | .error err => .error err
    | .ok s1 => run s1 es

/-- The steps of `es` from a freshly constructed pool of `num_tapes` copies of `tape`. -/
def exec {Tape : Type} [Inhabited Tape] (tape : Tape) (num_tapes : Nat) (es : List Step) :
    Except Stuck (System Tape) :=
  match fresh tape num_tapes with
  | .error e => .error e
  | .ok s => run s es

/-- The thread number of the packet a lease holds. -/
def held_thread_num {Tape : Type} (w : World Tape) (l : tape_scoped_lock) : Option Nat :=
  (w.MTM.all_tape_packets[l.tp]?).map (fun pk => pk.thread_num)

/-! ## The public operations on a lease between its construction and its destruction -/

/-- A call of a public member of `tape_scoped_lock`. -/
inductive LeaseOp where
  | getTapePtr
  | star
  | arrow
  | set_tape_packet (newtp : Nat)
  deriving DecidableEq, Repr

/-- The lease after one call. -/
def LeaseOp.apply (l : tape_scoped_lock) : LeaseOp → tape_scoped_lock
  | .getTapePtr => l
  | .star => l
  | .arrow => l
  | .set_tape_packet newtp => l.set_tape_packet newtp

/-- The lease after a sequence of calls. -/
def applyOps (l : tape_scoped_lock) (ops : List LeaseOp) : tape_scoped_lock :=
  ops.foldl LeaseOp.apply l

/-- Whether a call is `set_tape_packet`. -/
def LeaseOp.isSet : LeaseOp → Bool
  | .set_tape_packet _ => true
  | _ => false

/-! ## The test program `test.cpp`

The tape type `CppAD::ADFun<double>` and its member `Jacobian` belong to CppAD and are
parameters.  `Jacobian` is not a `const` member, an evaluation works inside the tape object:
it is a function from the tape and the argument to the result and the tape as the call
leaves it.  The type `double` is a parameter too, see `double_ops`.

The workers of `parallel_for` run the statements of the loop body of
`parallel_grad::operator()` interleaved.  `Work` lists these statements; how TBB cuts the
range into blocks and hands them to threads is not fixed, so an execution may run the
statements for any index on any thread at any time; of the order of the statements within
one iteration it keeps what the data needs: a `Jacobian` call needs a live lease, and the
assignment to `gradgrid[i]` needs the local vector `grad` of a call that has returned.
This admits every interleaving the program has. -/

/-- What every state of an execution from a fresh pool of `N` copies of `tape` satisfies:
the tapes and packets are as constructed, the queue has capacity `N`, and the packet
pointers held by live leases followed by those in the queue list every packet once. -/
structure Inv {Tape : Type} (tape : Tape) (N : Nat) (s : System Tape) : Prop where
  tapes : s.world.MTM.tapes = List.replicate N tape
  packets : s.world.MTM.all_tape_packets = (List.range N).map (fun i => ⟨i, i⟩)
  capacity : s.world.MTM.available_tape_packets.capacity = some N
  perm : List.Perm (s.live.map (fun l => l.tp) ++ s.world.MTM.available_tape_packets.items)
    (List.range N)

/-- The part of the invariant that does not speak of the tapes. -/
structure Core {Tape : Type} (N : Nat) (s : System Tape) : Prop where
  packets : s.world.MTM.all_tape_packets = (List.range N).map (fun i => ⟨i, i⟩)
  capacity : s.world.MTM.available_tape_packets.capacity = some N
  perm : List.Perm (s.live.map (fun l => l.tp) ++ s.world.MTM.available_tape_packets.items)
    (List.range N)

section constructor_lemmas

variable {Tape : Type}

theorem foldl_set_length {α : Type} (f : Nat → α) (is : List Nat) (l : List α) :
    (is.foldl (fun acc i => acc.set i (f i)) l).length = l.length := by
  induction is generalizing l with
  | nil => rfl
  | cons i is ih => simp [ih]

theorem foldl_set_range_getElem? {α : Type} (f : Nat → α) (k : Nat) (l : List α) (j : Nat) :
    ((List.range k).foldl (fun acc i => acc.set i (f i)) l)[j]? =
      if j < k then (if j < l.length then some (f j) else none) else l[j]? := by
  induction k with
  | zero => simp
  | succ k ih =>
    rw [List.range_succ, List.foldl_append]
    simp only [List.foldl_cons, List.foldl_nil]
    rw [List.getElem?_set, foldl_set_length, ih]
    by_cases hjk : k = j
    · subst hjk
      simp
    · have h1 : (j < k + 1) = (j < k) := by
        apply propext
        omega
      simp only [hjk, if_false, h1]

theorem foldl_set_range_resize {α : Type} [Inhabited α] (f : Nat → α) (n : Nat) :
    (List.range n).foldl (fun acc i => acc.set i (f i)) (resize ([] : List α) n) =
      (List.range n).map f := by
  apply List.ext_getElem?
  intro j
  rw [foldl_set_range_getElem?]
  by_cases hj : j < n
  · simp [resize, hj, List.getElem?_range hj]
  · have hn : n ≤ j := Nat.le_of_not_lt hj
    have h1 : (resize ([] : List α) n)[j]? = none :=
      List.getElem?_eq_none (by simpa [resize] using hn)
    have h2 : (List.range n)[j]? = none := List.getElem?_eq_none (by simpa using hn)
    simp [hj, h1, h2]

theorem foldl_tapes (tape : Tape) (is : List Nat) (m : multithread_tape_manager Tape) :
    is.foldl (fun acc i => { acc with tapes := acc.tapes.set i tape }) m =
      { m with tapes := is.foldl (fun acc i => acc.set i tape) m.tapes } := by
  induction is generalizing m with
  | nil => rfl
  | cons i is ih => simp [ih]

theorem foldl_packets (is : List Nat) (m : multithread_tape_manager Tape) :
    is.foldl (fun acc i =>
        { acc with all_tape_packets := acc.all_tape_packets.set i (⟨i, i⟩ : tape_packet) }) m =
      { m with all_tape_packets :=
          is.foldl (fun acc i => acc.set i (⟨i, i⟩ : tape_packet)) m.all_tape_packets } := by
  induction is generalizing m with
  | nil => rfl
  | cons i is ih => simp [ih]

theorem foldlM_push (n : Nat) (is : List Nat) (m : multithread_tape_manager Tape)
    (hc : m.available_tape_packets.capacity = some n)
    (hl : m.available_tape_packets.items.length + is.length ≤ n) :
    is.foldlM (fun acc i => do
        let q ← acc.available_tape_packets.push i
        pure { acc with available_tape_packets := q }) m =
      (.ok { m with available_tape_packets :=
          ⟨some n, m.available_tape_packets.items ++ is⟩ } : Except Stuck _) := by
  induction is generalizing m with
  | nil =>
    obtain ⟨t, p, c, q⟩ := m
    simp at hc
    simp [hc]
    rfl
  | cons i is ih =>
    simp only [List.length_cons] at hl
    have hnf : m.available_tape_packets.full = false := by
      simp [concurrent_bounded_queue.full, hc]
      omega
    rw [List.foldlM_cons]
    simp only [concurrent_bounded_queue.push, hnf]
    have := ih { m with available_tape_packets :=
      { m.available_tape_packets with items := m.available_tape_packets.items ++ [i] } }
      (by simpa using hc) (by simp; omega)
    simpa [bind, Except.bind] using this

/-- The constructor returns for every size: the tapes are copies of the template, packet `i`
has thread number `i` and points to tape `i`, and the queue of capacity `num_tapes` holds
the packet pointers in index order. -/
theorem construct_eq [Inhabited Tape] (tape : Tape) (num_tapes : Nat) :
    multithread_tape_manager.construct tape num_tapes =
      .ok ⟨List.replicate num_tapes tape,
           (List.range num_tapes).map (fun i => ⟨i, i⟩),
           ⟨some num_tapes, List.range num_tapes⟩⟩ := by
  unfold multithread_tape_manager.construct multithread_tape_manager.setup_tape_packets
    multithread_tape_manager.setup_tapes forLoop forLoopM
  simp only [foldl_tapes, foldl_packets]
  rw [foldlM_push num_tapes]
  · simp only [multithread_tape_manager.init, foldl_set_range_resize,
      concurrent_bounded_queue.set_capacity, concurrent_bounded_queue.empty, List.nil_append]
    simp
  · rfl
  · simp [multithread_tape_manager.init, concurrent_bounded_queue.set_capacity,
      concurrent_bounded_queue.empty]

end constructor_lemmas

/-! ## Executions keep the invariant -/

section invariant

variable {Tape : Type}

theorem packets_getElem? (N p : Nat) (hp : p < N) :
    ((List.range N).map (fun i => (⟨i, i⟩ : tape_packet)))[p]? = some ⟨p, p⟩ := by
  simp [List.getElem?_range hp]

theorem core_of_inv {tape : Tape} {N : Nat} {s : System Tape} (h : Inv tape N s) :
    Core N s :=
  ⟨h.packets, h.capacity, h.perm⟩

theorem core_mem_lt {N : Nat} {s : System Tape} (h : Core N s) {p : Nat}
    (hp : p ∈ s.live.map (fun l => l.tp) ++ s.world.MTM.available_tape_packets.items) :
    p < N := by
  have := (h.perm.mem_iff).1 hp
  simpa using this

theorem core_live_lt {N : Nat} {s : System Tape} (h : Core N s) {l : tape_scoped_lock}
    (hl : l ∈ s.live) : l.tp < N :=
  core_mem_lt h (by
    simp only [List.mem_append, List.mem_map]
    exact Or.inl ⟨l, hl, rfl⟩)

theorem core_length_eq {N : Nat} {s : System Tape} (h : Core N s) :
    s.live.length + s.world.MTM.available_tape_packets.items.length = N := by
  have := h.perm.length_eq
  simpa using this

/-- In a state of an execution a request returns exactly when the queue is not empty; it
grants the front packet and records its thread number for the calling thread. -/
theorem core_request {N : Nat} {s : System Tape} (h : Core N s)
    (thread p : Nat) (rest : List Nat)
    (hq : s.world.MTM.available_tape_packets.items = p :: rest) :
    p < N ∧ request_tape_packet thread s.world = .ok (p,
      { MTM := { s.world.MTM with available_tape_packets := ⟨some N, rest⟩ },
        thread_specific_index := s.world.thread_specific_index.assign thread p }) := by
  have hp : p < N := core_mem_lt h (by simp [hq])
  refine ⟨hp, ?_⟩
  simp [request_tape_packet, concurrent_bounded_queue.pop, hq, h.packets, h.capacity,
    List.getElem?_range hp]

/-- In a state of an execution, releasing the packet of a live lease returns `true` and
appends the packet at the back of the queue. -/
theorem core_release {N : Nat} {s : System Tape} (h : Core N s)
    (l : tape_scoped_lock) (hl : l ∈ s.live) :
    s.world.MTM.available_tape_packets.items.length < N ∧
    release_tape_packet l.tp s.world = .ok (true,
      { s.world with MTM := { s.world.MTM with available_tape_packets :=
          ⟨some N, s.world.MTM.available_tape_packets.items ++ [l.tp]⟩ } }) := by
  have hp : l.tp < N := core_live_lt h hl
  have hlen := core_length_eq h
  have hpos : 0 < s.live.length := List.length_pos_of_mem hl
  have hlt : s.world.MTM.available_tape_packets.items.length < N := by omega
  refine ⟨hlt, ?_⟩
  have hnf : s.world.MTM.available_tape_packets.full = false := by
    simp [concurrent_bounded_queue.full, h.capacity]
    omega
  simp [release_tape_packet, concurrent_bounded_queue.push, hnf, h.packets, h.capacity,
    List.getElem?_range hp]

theorem perm_cons_eraseIdx {α : Type} (l : List α) (k : Nat) (a : α) (h : l[k]? = some a) :
    List.Perm l (a :: l.eraseIdx k) := by
  induction l generalizing k with
  | nil => simp at h
  | cons b l ih =>
    cases k with
    | zero =>
      simp at h
      subst h
      simp
    | succ k =>
      simp at h
      have := ih k h
      simp only [List.eraseIdx_cons_succ]
      exact (List.Perm.cons b this).trans (List.Perm.swap a b _)

/-- A lease being constructed or destructed keeps the invariant and leaves the tapes as
they are. -/
theorem core_step {N : Nat} {s s1 : System Tape} (h : Core N s) (e : Step)
    (hs : step s e = .ok s1) : Core N s1 ∧ s1.world.MTM.tapes = s.world.MTM.tapes := by
  cases e with
  | acquire thread =>
    cases hq : s.world.MTM.available_tape_packets.items with
    | nil =>
      simp [step, tape_scoped_lock.construct, request_tape_packet,
        concurrent_bounded_queue.pop, hq] at hs
    | cons p rest =>
      have hr := (core_request h thread p rest hq).2
      simp only [step, tape_scoped_lock.construct, hr, Except.ok.injEq] at hs
      subst hs
      refine ⟨⟨h.packets, rfl, ?_⟩, rfl⟩
      have := h.perm
      rw [hq] at this
      simp only [List.map_append, List.map_cons, List.map_nil, List.append_assoc,
        List.singleton_append]
      exact this
  | drop k =>
    cases hk : s.live[k]? with
    | none => simp [step, hk] at hs
    | some l =>
      have hl : l ∈ s.live := List.mem_iff_getElem?.2 ⟨k, hk⟩
      have hr := (core_release h l hl).2
      simp only [step, hk, tape_scoped_lock.destruct, hr, Except.ok.injEq] at hs
      subst hs
      refine ⟨⟨h.packets, rfl, ?_⟩, rfl⟩
      have hp := (perm_cons_eraseIdx s.live k l hk).map (fun l => l.tp)
      refine List.Perm.trans ?_ h.perm
      refine List.Perm.trans ?_ (List.Perm.append_right _ hp.symm)
      simp only [List.map_cons, List.cons_append]
      rw [← List.append_assoc]
      exact List.perm_append_singleton _ _

theorem inv_mem_lt {tape : Tape} {N : Nat} {s : System Tape} (h : Inv tape N s) {p : Nat}
    (hp : p ∈ s.live.map (fun l => l.tp) ++ s.world.MTM.available_tape_packets.items) :
    p < N :=
  core_mem_lt (core_of_inv h) hp

theorem inv_length_eq {tape : Tape} {N : Nat} {s : System Tape} (h : Inv tape N s) :
    s.live.length + s.world.MTM.available_tape_packets.items.length = N :=
  core_length_eq (core_of_inv h)

theorem inv_fresh [Inhabited Tape] (tape : Tape) (N : Nat) :
    ∃ s, fresh tape N = .ok s ∧ Inv tape N s ∧ s.live = [] ∧
      s.world.thread_specific_index = combinable.empty ∧
      s.world.MTM.available_tape_packets.items = List.range N := by
  refine ⟨⟨⟨⟨List.replicate N tape, (List.range N).map (fun i => ⟨i, i⟩),
    ⟨some N, List.range N⟩⟩, combinable.empty⟩, []⟩, ?_, ⟨rfl, rfl, rfl, ?_⟩, rfl, rfl, rfl⟩
  · simp only [fresh, construct_eq]
  · simp

theorem inv_request {tape : Tape} {N : Nat} {s : System Tape} (h : Inv tape N s)
    (thread p : Nat) (rest : List Nat)
    (hq : s.world.MTM.available_tape_packets.items = p :: rest) :
    p < N ∧ request_tape_packet thread s.world = .ok (p,
      { MTM := { s.world.MTM with available_tape_packets := ⟨some N, rest⟩ },
        thread_specific_index := s.world.thread_specific_index.assign thread p }) :=
  core_request (core_of_inv h) thread p rest hq

theorem inv_release {tape : Tape} {N : Nat} {s : System Tape} (h : Inv tape N s)
    (l : tape_scoped_lock) (hl : l ∈ s.live) :
    s.world.MTM.available_tape_packets.items.length < N ∧
    release_tape_packet l.tp s.world = .ok (true,
      { s.world with MTM := { s.world.MTM with available_tape_packets :=
          ⟨some N, s.world.MTM.available_tape_packets.items ++ [l.tp]⟩ } }) :=
  core_release (core_of_inv h) l hl

theorem inv_step {tape : Tape} {N : Nat} {s s1 : System Tape} (h : Inv tape N s) (e : Step)
    (hs : step s e = .ok s1) : Inv tape N s1 := by
  obtain ⟨hc, ht⟩ := core_step (core_of_inv h) e hs
  exact ⟨ht.trans h.tapes, hc.packets, hc.capacity, hc.perm⟩

theorem inv_run {tape : Tape} {N : Nat} {s s1 : System Tape} (h : Inv tape N s)
    (es : List Step) (hs : run s es = .ok s1) : Inv tape N s1 := by
  induction es generalizing s with
  | nil =>
    simp only [TBB4CppAD.run, Except.ok.injEq] at hs
    exact hs ▸ h
  | cons e es ih =>
    cases he : TBB4CppAD.step s e with
    | error err => simp [TBB4CppAD.run, he] at hs
    | ok s2 =>
      simp only [TBB4CppAD.run, he] at hs
      exact ih (inv_step h e he) hs

theorem inv_exec [Inhabited Tape] {tape : Tape} {N : Nat} {s : System Tape} (es : List Step)
    (hs : exec tape N es = .ok s) : Inv tape N s := by
  obtain ⟨s0, h0, hinv, -⟩ := inv_fresh tape N
  simp only [TBB4CppAD.exec, h0] at hs
  exact inv_run hinv es hs

end invariant

/-! ## The thread-local index -/

section thread_index

variable {Tape : Type}

theorem local_assign_self (c : combinable) (thread v : Nat) :
    (c.assign thread v).local thread = v := by
  simp [combinable.local, combinable.assign]

theorem lookup_filter_ne (l : List (Nat × Nat)) (t u : Nat) (h : t ≠ u) :
    (l.filter (fun e => e.1 != u)).lookup t = l.lookup t := by
  induction l with
  | nil => rfl
  | cons e l ih =>
    obtain ⟨a, b⟩ := e
    by_cases hau : a = u
    · subst hau
      have hta : (t == a) = false := by simpa using h
      simp [List.filter_cons, List.lookup_cons, hta, ih]
    · have hau2 : (a != u) = true := by simpa using hau
      simp only [List.filter_cons, hau2, if_true, List.lookup_cons, ih]

theorem local_assign_other (c : combinable) (t u v : Nat) (h : t ≠ u) :
    (c.assign u v).local t = c.local t := by
  have htu : (t == u) = false := by simpa using h
  simp [combinable.local, combinable.assign, List.lookup_cons, htu, lookup_filter_ne _ _ _ h]

theorem request_ok_inv {u p : Nat} {w w1 : World Tape}
    (h : request_tape_packet u w = .ok (p, w1)) :
    ∃ rest pk, w.MTM.available_tape_packets.items = p :: rest ∧
      w.MTM.all_tape_packets[p]? = some pk ∧
      w1 = { MTM := { w.MTM with available_tape_packets :=
                { w.MTM.available_tape_packets with items := rest } },
             thread_specific_index := w.thread_specific_index.assign u pk.thread_num } := by
  unfold request_tape_packet concurrent_bounded_queue.pop at h
  cases hq : w.MTM.available_tape_packets.items with
  | nil => simp [hq] at h
  | cons x rest =>
    simp only [hq] at h
    cases hpk : w.MTM.all_tape_packets[x]? with
    | none => simp [hpk] at h
    | some pk =>
      simp only [hpk, Except.ok.injEq, Prod.mk.injEq] at h
      obtain ⟨hx, hw⟩ := h
      subst hx
      exact ⟨rest, pk, rfl, hpk, hw.symm⟩

theorem release_ok_inv {tp : Nat} {b : Bool} {w w1 : World Tape}
    (h : release_tape_packet tp w = .ok (b, w1)) :
    b = true ∧ w.MTM.available_tape_packets.full = false ∧
      w1 = { w with MTM := { w.MTM with available_tape_packets :=
        { w.MTM.available_tape_packets with
          items := w.MTM.available_tape_packets.items ++ [tp] } } } := by
  unfold release_tape_packet concurrent_bounded_queue.push at h
  cases hpk : w.MTM.all_tape_packets[tp]? with
  | none => simp [hpk] at h
  | some pk =>
    simp only [hpk] at h
    cases hf : w.MTM.available_tape_packets.full with
    | true => simp [hf] at h
    | false =>
      simp only [hf, Bool.false_eq_true, if_false, Except.ok.injEq, Prod.mk.injEq] at h
      exact ⟨h.1.symm, rfl, h.2.symm⟩

theorem step_thread_num {s s1 : System Tape} (e : Step) (t : Nat)
    (hs : step s e = .ok s1) (he : e ≠ Step.acquire t) :
    thread_num t s1.world = thread_num t s.world := by
  cases e with
  | acquire u =>
    have htu : t ≠ u := fun h => he (by rw [h])
    simp only [step, tape_scoped_lock.construct] at hs
    cases hr : request_tape_packet u s.world with
    | error err => simp [hr] at hs
    | ok r =>
      obtain ⟨p, w1⟩ := r
      simp only [hr, Except.ok.injEq] at hs
      subst hs
      obtain ⟨rest, pk, -, -, hw⟩ := request_ok_inv hr
      subst hw
      simp [thread_num, local_assign_other _ _ _ _ htu]
  | drop k =>
    simp only [step, tape_scoped_lock.destruct] at hs
    cases hk : s.live[k]? with
    | none => simp [hk] at hs
    | some l =>
      simp only [hk] at hs
      cases hr : release_tape_packet l.tp s.world with
      | error err => simp [hr] at hs
      | ok r =>
        obtain ⟨b, w1⟩ := r
        simp only [hr, Except.ok.injEq] at hs
        subst hs
        obtain ⟨-, -, hw⟩ := release_ok_inv hr
        subst hw
        rfl

theorem run_thread_num {s s1 : System Tape} (es : List Step) (t : Nat)
    (hs : run s es = .ok s1) (he : ∀ e ∈ es, e ≠ Step.acquire t) :
    thread_num t s1.world = thread_num t s.world := by
  induction es generalizing s with
  | nil =>
    simp only [run, Except.ok.injEq] at hs
    rw [hs]
  | cons e es ih =>
    cases h1 : step s e with
    | error err => simp [run, h1] at hs
    | ok s2 =>
      simp only [run, h1] at hs
      rw [ih hs (fun e1 h => he e1 (List.mem_cons_of_mem _ h)),
        step_thread_num e t h1 (he e (List.mem_cons_self _ _))]

end thread_index

theorem run_acquires {Tape : Type} {tape : Tape} {N : Nat} (ts : List Nat) (s : System Tape)
    (h : Inv tape N s) (hlen : ts.length ≤ s.world.MTM.available_tape_packets.items.length) :
    ∃ s1, run s (ts.map Step.acquire) = .ok s1 ∧
      s1.live = s.live ++
        (s.world.MTM.available_tape_packets.items.take ts.length).map (fun p => ⟨p⟩) ∧
      s1.world.MTM.available_tape_packets.items =
        s.world.MTM.available_tape_packets.items.drop ts.length := by
  induction ts generalizing s with
  | nil => exact ⟨s, rfl, by simp, by simp⟩
  | cons t ts ih =>
    cases hq : s.world.MTM.available_tape_packets.items with
    | nil => simp [hq] at hlen
    | cons p rest =>
      have hr := (inv_request h t p rest hq).2
      have hstep : step s (Step.acquire t) = .ok
          ⟨{ MTM := { s.world.MTM with available_tape_packets := ⟨some N, rest⟩ },
             thread_specific_index := s.world.thread_specific_index.assign t p },
           s.live ++ [⟨p⟩]⟩ := by
        simp only [step, tape_scoped_lock.construct, hr]
      have hinv := inv_step h _ hstep
      have hlen2 : ts.length ≤ rest.length := by
        simp only [hq, List.length_cons] at hlen
        omega
      obtain ⟨s1, h1, h2, h3⟩ := ih _ hinv hlen2
      refine ⟨s1, ?_, ?_, ?_⟩
      · simp only [List.map_cons, run, hstep]
        exact h1
      · rw [h2]
        simp
      · rw [h3]
        simp


/-! ## Executions of the test -/

section test_lemmas

variable {Tape V : Type}

end test_lemmas

/-! ## The claims -/

section claims

variable {Tape : Type}

/-- C1: in every state an execution of lease constructions and destructions reaches from a
freshly constructed pool of `N` packets, every packet is either held by exactly one live
lease and absent from `available_tape_packets`, or held by no live lease and present
exactly once in `available_tape_packets`; the number of live leases plus the number of
queued references is `N`; every live lease references a packet of the pool and no two
live leases hold the same `thread_num`. -/
theorem C1_leased_xor_available [Inhabited Tape] (tape : Tape) (N : Nat) (es : List Step)
    (s : System Tape) (hs : exec tape N es = .ok s) :
    (∀ i, i < N →
      ((s.live.map (fun l => l.tp)).count i = 1 ∧
          s.world.MTM.available_tape_packets.items.count i = 0) ∨
      ((s.live.map (fun l => l.tp)).count i = 0 ∧
          s.world.MTM.available_tape_packets.items.count i = 1)) ∧
    s.live.length + s.world.MTM.available_tape_packets.items.length = N ∧
    (∀ l ∈ s.live, held_thread_num s.world l = some l.tp ∧ l.tp < N) ∧
    (s.live.map (held_thread_num s.world)).Nodup := by
  have h := inv_exec es hs
  have hnd : (s.live.map (fun l => l.tp) ++
      s.world.MTM.available_tape_packets.items).Nodup :=
    (h.perm.nodup_iff).2 (List.nodup_range N)
  have hheld : ∀ l ∈ s.live, held_thread_num s.world l = some l.tp ∧ l.tp < N := by
    intro l hl
    have hp : l.tp < N := inv_mem_lt h (by
      simp only [List.mem_append, List.mem_map]
      exact Or.inl ⟨l, hl, rfl⟩)
    exact ⟨by simp [held_thread_num, h.packets, List.getElem?_range hp], hp⟩
  refine ⟨?_, inv_length_eq h, hheld, ?_⟩
  · intro i hi
    have hmem : i ∈ s.live.map (fun l => l.tp) ++
        s.world.MTM.available_tape_packets.items :=
      (h.perm.mem_iff).2 (List.mem_range.2 hi)
    have hc := List.count_eq_one_of_mem hnd hmem
    rw [List.count_append] at hc
    omega
  · have hmap : s.live.map (held_thread_num s.world) =
        (s.live.map (fun l => l.tp)).map some := by
      rw [List.map_map]
      exact List.map_congr_left (fun l hl => (hheld l hl).1)
    rw [hmap]
    exact (List.Nodup.of_append_left hnd).map (Option.some_injective _)

/-- An execution for C1: two leases are taken from a pool of three and the first is ended. -/
theorem C1_leased_xor_available_witness :
    ∃ s : System Nat, exec 0 3 [.acquire 5, .acquire 6, .drop 0] = .ok s ∧
      ((∀ i, i < 3 →
        ((s.live.map (fun l => l.tp)).count i = 1 ∧
            s.world.MTM.available_tape_packets.items.count i = 0) ∨
        ((s.live.map (fun l => l.tp)).count i = 0 ∧
            s.world.MTM.available_tape_packets.items.count i = 1)) ∧
      s.live.length + s.world.MTM.available_tape_packets.items.length = 3 ∧
      (∀ l ∈ s.live, held_thread_num s.world l = some l.tp ∧ l.tp < 3) ∧
      (s.live.map (held_thread_num s.world)).Nodup) :=
  ⟨_, rfl, C1_leased_xor_available 0 3 [.acquire 5, .acquire 6, .drop 0] _ rfl⟩

/-- C10: in every state an execution reaches from a freshly constructed pool of `N` packets,
for every live lease the queue holds fewer references than its capacity `N`, and
`release_tape_packet` for the packet of that lease does not wait: it returns `true`. -/
theorem C10_release_never_waits [Inhabited Tape] (tape : Tape) (N : Nat) (es : List Step)
    (s : System Tape) (hs : exec tape N es = .ok s) (l : tape_scoped_lock) (hl : l ∈ s.live) :
    s.world.MTM.available_tape_packets.capacity = some N ∧
    s.world.MTM.available_tape_packets.items.length < N ∧
    s.world.MTM.available_tape_packets.full = false ∧
    ∃ w, release_tape_packet l.tp s.world = .ok (true, w) := by
  have h := inv_exec es hs
  obtain ⟨hlt, hr⟩ := inv_release h l hl
  refine ⟨h.capacity, hlt, ?_, _, hr⟩
  simp only [concurrent_bounded_queue.full, h.capacity, decide_eq_false_iff_not, not_le]
  exact hlt

/-- An execution for C10: one lease of a pool of two is alive. -/
theorem C10_release_never_waits_witness :
    ∃ s : System Nat, exec 0 2 [.acquire 4] = .ok s ∧ (⟨0⟩ : tape_scoped_lock) ∈ s.live ∧
      (s.world.MTM.available_tape_packets.capacity = some 2 ∧
      s.world.MTM.available_tape_packets.items.length < 2 ∧
      s.world.MTM.available_tape_packets.full = false ∧
      ∃ w, release_tape_packet (⟨0⟩ : tape_scoped_lock).tp s.world = .ok (true, w)) :=
  ⟨_, rfl, List.mem_singleton.2 rfl,
    C10_release_never_waits 0 2 [.acquire 4] _ rfl ⟨0⟩ (List.mem_singleton.2 rfl)⟩

/-- C7: in every state an execution reaches from a freshly constructed pool of `N` packets in
which a packet is available, `request_tape_packet` on a thread returns a packet `p`, and
right after it `thread_num()` on that thread is the `thread_num` of `p`, a value below `N`.
The state after releasing is again such a state, so the same holds for a later request. -/
theorem C7_thread_num_is_last_grant [Inhabited Tape] (tape : Tape) (N : Nat) (es : List Step)
    (s : System Tape) (hs : exec tape N es = .ok s)
    (havail : s.world.MTM.available_tape_packets.items ≠ []) (thread : Nat) :
    ∃ p w pk, request_tape_packet thread s.world = .ok (p, w) ∧
      w.MTM.all_tape_packets[p]? = some pk ∧
      thread_num thread w = pk.thread_num ∧ pk.thread_num < N := by
  have h := inv_exec es hs
  cases hq : s.world.MTM.available_tape_packets.items with
  | nil => exact absurd hq havail
  | cons p rest =>
    obtain ⟨hp, hr⟩ := inv_request h thread p rest hq
    refine ⟨p, _, ⟨p, p⟩, hr, ?_, ?_, hp⟩
    · simp [h.packets, List.getElem?_range hp]
    · simp [thread_num, local_assign_self]

/-- An execution for C7: thread 5 takes a lease, ends it and asks again. -/
theorem C7_thread_num_is_last_grant_witness :
    ∃ s : System Nat, exec 0 2 [.acquire 5, .drop 0] = .ok s ∧
      s.world.MTM.available_tape_packets.items ≠ [] ∧
      ∃ p w pk, request_tape_packet 5 s.world = .ok (p, w) ∧
        w.MTM.all_tape_packets[p]? = some pk ∧
        thread_num 5 w = pk.thread_num ∧ pk.thread_num < 2 :=
  ⟨_, rfl, by decide,
    C7_thread_num_is_last_grant 0 2 [.acquire 5, .drop 0] _ rfl (by decide) 5⟩

/-- C2: the constructor returns for every `N`; right after it the queue has capacity `N` and
holds exactly `N` references, the packets with `thread_num` `0, 1, ..., N-1` in this
order, and no lease is alive; `N` requests in a row, on any threads `ts`, with no release
in between are granted the packets with `thread_num` `0, 1, ..., N-1` in this order. -/
theorem C2_constructed_pool [Inhabited Tape] (tape : Tape) (N : Nat) (ts : List Nat)
    (hts : ts.length = N) :
    ∃ m s0 s, multithread_tape_manager.construct tape N = .ok m ∧
      m.available_tape_packets.capacity = some N ∧
      m.available_tape_packets.items.length = N ∧
      m.available_tape_packets.items = List.range N ∧
      m.available_tape_packets.items.map
        (fun p => (m.all_tape_packets[p]?).map (fun pk => pk.thread_num)) =
        (List.range N).map some ∧
      fresh tape N = .ok s0 ∧ s0.world.MTM = m ∧ s0.live = [] ∧
      exec tape N (ts.map Step.acquire) = .ok s ∧
      s.live.map (held_thread_num s.world) = (List.range N).map some := by
  obtain ⟨s0, h0, hinv, hlive, -, hitems⟩ := inv_fresh tape N
  obtain ⟨s, h1, h2, -⟩ := run_acquires ts s0 hinv (by simp [hitems, hts])
  have hs0 : s0.world.MTM = ⟨List.replicate N tape,
      (List.range N).map (fun i => ⟨i, i⟩), ⟨some N, List.range N⟩⟩ := by
    have := h0
    simp only [fresh, construct_eq, Except.ok.injEq] at this
    rw [← this]
  have hex : exec tape N (ts.map Step.acquire) = .ok s := by
    simp only [exec, h0, h1]
  have hinv1 := inv_exec _ hex
  refine ⟨_, s0, s, construct_eq tape N, rfl, by simp, rfl, ?_, h0, hs0, hlive, hex, ?_⟩
  · apply List.map_congr_left
    intro p hp
    simp [List.getElem?_range (List.mem_range.1 hp)]
  · rw [h2, hlive, hitems, hts]
    simp only [List.nil_append, List.map_map]
    rw [List.take_of_length_le (by simp)]
    apply List.map_congr_left
    intro p hp
    simp [held_thread_num, hinv1.packets, List.getElem?_range (List.mem_range.1 hp)]

/-- A pool of three for C2, asked three times by threads 7, 7 and 9. -/
theorem C2_constructed_pool_witness :
    ∃ (m : multithread_tape_manager Nat) (s0 s : System Nat),
      multithread_tape_manager.construct 0 3 = .ok m ∧
      m.available_tape_packets.capacity = some 3 ∧
      m.available_tape_packets.items.length = 3 ∧
      m.available_tape_packets.items = List.range 3 ∧
      m.available_tape_packets.items.map
        (fun p => (m.all_tape_packets[p]?).map (fun pk => pk.thread_num)) =
        (List.range 3).map some ∧
      fresh 0 3 = .ok s0 ∧ s0.world.MTM = m ∧ s0.live = [] ∧
      exec 0 3 ([7, 7, 9].map Step.acquire) = .ok s ∧
      s.live.map (held_thread_num s.world) = (List.range 3).map some :=
  C2_constructed_pool 0 3 [7, 7, 9] rfl

/-- C3, counterexample: constructing the pool with `num_tapes = 0` does not fail; the
constructor returns a pool without tapes and packets whose queue is empty. -/
theorem C3_zero_tapes_returns_counterexample :
    multithread_tape_manager.construct (0 : Nat) 0 = .ok ⟨[], [], ⟨some 0, []⟩⟩ ∧
    ¬ ∃ e, multithread_tape_manager.construct (0 : Nat) 0 = .error e := by
  refine ⟨rfl, ?_⟩
  rintro ⟨e, he⟩
  rw [construct_eq] at he
  cases he

/-- C3, amended: for every template the constructor called with `num_tapes = 0` returns the
pool without tapes and packets whose queue has capacity 0 and no entry; on this pool every
`request_tape_packet` waits. -/
theorem C3_zero_tapes_empty_pool [Inhabited Tape] (tape : Tape) :
    multithread_tape_manager.construct tape 0 = .ok ⟨[], [], ⟨some 0, []⟩⟩ ∧
    ∀ (thread : Nat) (c : combinable),
      request_tape_packet thread (⟨⟨[], [], ⟨some 0, []⟩⟩, c⟩ : World Tape) =
        .error .blocked := by
  refine ⟨?_, fun _ _ => rfl⟩
  rw [construct_eq]
  rfl

/-- C4, counterexample: in a pool of two with packet 0 leased, packet 1 is not leased and
sits in the queue; `release_tape_packet` on packet 1 is not rejected, it returns `true` and
the queue then holds two references where it held one. -/
theorem C4_release_unleased_counterexample :
    ∃ (s : System Nat) (w : World Nat), exec 0 2 [.acquire 5] = .ok s ∧
      s.live = [⟨0⟩] ∧ s.world.MTM.available_tape_packets.items = [1] ∧
      release_tape_packet 1 s.world = .ok (true, w) ∧
      w.MTM.available_tape_packets.items = [1, 1] :=
  ⟨_, _, rfl, rfl, rfl, rfl, rfl⟩

/-- C4, amended: `release_tape_packet` does not check that the packet is leased.  For every
pool state and every packet of the pool, leased or not: when the queue holds as many
references as its capacity the call waits; otherwise it returns `true` and the queue gets
one more reference to the packet at its back, so the count of references grows by one. -/
theorem C4_release_appends_unchecked (tp : Nat) (w : World Tape) (pk : tape_packet)
    (hpk : w.MTM.all_tape_packets[tp]? = some pk) :
    (w.MTM.available_tape_packets.full = true →
      release_tape_packet tp w = .error .blocked) ∧
    (w.MTM.available_tape_packets.full = false →
      ∃ w1, release_tape_packet tp w = .ok (true, w1) ∧
        w1.MTM.available_tape_packets.items = w.MTM.available_tape_packets.items ++ [tp] ∧
        w1.MTM.available_tape_packets.items.length =
          w.MTM.available_tape_packets.items.length + 1 ∧
        w1.MTM.available_tape_packets.items.count tp =
          w.MTM.available_tape_packets.items.count tp + 1 ∧
        w1.MTM.available_tape_packets.capacity = w.MTM.available_tape_packets.capacity ∧
        w1.MTM.tapes = w.MTM.tapes ∧ w1.MTM.all_tape_packets = w.MTM.all_tape_packets ∧
        w1.thread_specific_index = w.thread_specific_index) := by
  refine ⟨fun hf => ?_, fun hf => ?_⟩
  · simp [release_tape_packet, hpk, concurrent_bounded_queue.push, hf]
  · refine ⟨{ w with MTM := { w.MTM with available_tape_packets :=
        { w.MTM.available_tape_packets with
          items := w.MTM.available_tape_packets.items ++ [tp] } } }, ?_, rfl, ?_, ?_,
        rfl, rfl, rfl, rfl⟩
    · simp [release_tape_packet, hpk, concurrent_bounded_queue.push, hf]
    · simp
    · simp

/-- A state for C4: packet 1 of a pool of three sits in the queue while packet 0 is leased. -/
theorem C4_release_appends_unchecked_witness :
    ∃ w1 : World Nat,
      release_tape_packet 1 ⟨⟨[0, 0, 0], [⟨0, 0⟩, ⟨1, 1⟩, ⟨2, 2⟩], ⟨some 3, [1, 2]⟩⟩, ⟨[]⟩⟩ =
        .ok (true, w1) ∧
      w1.MTM.available_tape_packets.items = [1, 2] ++ [1] ∧
      w1.MTM.available_tape_packets.items.length = [1, 2].length + 1 ∧
      w1.MTM.available_tape_packets.items.count 1 = [1, 2].count 1 + 1 ∧
      w1.MTM.available_tape_packets.capacity = some 3 ∧
      w1.MTM.tapes = [0, 0, 0] ∧ w1.MTM.all_tape_packets = [⟨0, 0⟩, ⟨1, 1⟩, ⟨2, 2⟩] ∧
      w1.thread_specific_index = ⟨[]⟩ :=
  (C4_release_appends_unchecked 1
    (⟨⟨[0, 0, 0], [⟨0, 0⟩, ⟨1, 1⟩, ⟨2, 2⟩], ⟨some 3, [1, 2]⟩⟩, ⟨[]⟩⟩ : World Nat)
    ⟨1, 1⟩ rfl).2 rfl

/-- C5, counterexample: in a pool of three with packets 0 and 1 leased, ending the scope of
the lease of packet 0 a second time changes the queue again: it then holds two references
to packet 0. -/
theorem C5_second_end_of_scope_counterexample :
    ∃ (s : System Nat) (w1 w2 : World Nat), exec 0 3 [.acquire 1, .acquire 2] = .ok s ∧
      s.live = [⟨0⟩, ⟨1⟩] ∧
      tape_scoped_lock.destruct ⟨0⟩ s.world = .ok w1 ∧
      w1.MTM.available_tape_packets.items = [2, 0] ∧
      tape_scoped_lock.destruct ⟨0⟩ w1 = .ok w2 ∧
      w2.MTM.available_tape_packets.items = [2, 0, 0] :=
  ⟨_, _, _, rfl, rfl, rfl, rfl, rfl, rfl⟩

/-- C5, amended: ending the scope of a `tape_scoped_lock` calls `release_tape_packet` once,
on its held packet, and does nothing else; the lease carries no mark of being released.
When it returns the queue has one more reference to the packet, and when an end of scope
for the same lease is run again and returns, the queue has a further reference to it. -/
theorem C5_end_of_scope_releases_each_time (l : tape_scoped_lock) (w : World Tape) :
    l.destruct w = (release_tape_packet l.tp w).map Prod.snd ∧
    ∀ w1, l.destruct w = .ok w1 →
      w1.MTM.available_tape_packets.items = w.MTM.available_tape_packets.items ++ [l.tp] ∧
      ∀ w2, l.destruct w1 = .ok w2 →
        w2.MTM.available_tape_packets.items =
          w.MTM.available_tape_packets.items ++ [l.tp, l.tp] := by
  have key : ∀ (u u1 : World Tape), l.destruct u = .ok u1 →
      u1.MTM.available_tape_packets.items = u.MTM.available_tape_packets.items ++ [l.tp] := by
    intro u u1 hu
    simp only [tape_scoped_lock.destruct] at hu
    cases hr : release_tape_packet l.tp u with
    | error e => simp [hr] at hu
    | ok r =>
      obtain ⟨b, u2⟩ := r
      simp only [hr, Except.ok.injEq] at hu
      subst hu
      obtain ⟨-, -, hw⟩ := release_ok_inv hr
      rw [hw]
  refine ⟨?_, fun w1 h1 => ⟨key w w1 h1, fun w2 h2 => ?_⟩⟩
  · simp only [tape_scoped_lock.destruct]
    cases release_tape_packet l.tp w with
    | error e => rfl
    | ok r => rfl
  · rw [key w1 w2 h2, key w w1 h1]
    simp

/-- A state for C5: the lease of packet 1 in a pool of four, two packets in the queue. -/
theorem C5_end_of_scope_releases_each_time_witness :
    tape_scoped_lock.destruct ⟨1⟩
        (⟨⟨[0, 0, 0, 0], [⟨0, 0⟩, ⟨1, 1⟩, ⟨2, 2⟩, ⟨3, 3⟩], ⟨some 4, [2, 3]⟩⟩, ⟨[]⟩⟩ : World Nat) =
      .ok ⟨⟨[0, 0, 0, 0], [⟨0, 0⟩, ⟨1, 1⟩, ⟨2, 2⟩, ⟨3, 3⟩], ⟨some 4, [2, 3, 1]⟩⟩, ⟨[]⟩⟩ ∧
    tape_scoped_lock.destruct ⟨1⟩
        (⟨⟨[0, 0, 0, 0], [⟨0, 0⟩, ⟨1, 1⟩, ⟨2, 2⟩, ⟨3, 3⟩], ⟨some 4, [2, 3, 1]⟩⟩, ⟨[]⟩⟩ :
          World Nat) =
      .ok ⟨⟨[0, 0, 0, 0], [⟨0, 0⟩, ⟨1, 1⟩, ⟨2, 2⟩, ⟨3, 3⟩], ⟨some 4, [2, 3, 1, 1]⟩⟩, ⟨[]⟩⟩ ∧
    ([2, 3, 1, 1] : List Nat) = [2, 3] ++ [1, 1] :=
  ⟨rfl, rfl,
    ((C5_end_of_scope_releases_each_time ⟨1⟩
      (⟨⟨[0, 0, 0, 0], [⟨0, 0⟩, ⟨1, 1⟩, ⟨2, 2⟩, ⟨3, 3⟩], ⟨some 4, [2, 3]⟩⟩, ⟨[]⟩⟩ :
        World Nat)).2 _ rfl).2
      ⟨⟨[0, 0, 0, 0], [⟨0, 0⟩, ⟨1, 1⟩, ⟨2, 2⟩, ⟨3, 3⟩], ⟨some 4, [2, 3, 1, 1]⟩⟩, ⟨[]⟩⟩ rfl⟩

/-- C6, counterexample: a lease is granted packet 0 of a pool of two; after the public call
`set_tape_packet` with packet 1 the lease holds packet 1, and its end of scope hands packet
1, not packet 0, to `release_tape_packet`. -/
theorem C6_set_tape_packet_counterexample :
    ∃ (l : tape_scoped_lock) (o1 w : World Nat),
      tape_scoped_lock.construct 5 ⟨⟨[0, 0], [⟨0, 0⟩, ⟨1, 1⟩], ⟨some 2, [0, 1]⟩⟩, ⟨[]⟩⟩ =
        .ok (l, o1) ∧
      l.tp = 0 ∧ (applyOps l [.set_tape_packet 1]).tp = 1 ∧
      (applyOps l [.set_tape_packet 1]).destruct o1 = .ok w ∧
      w.MTM.available_tape_packets.items = [1, 1] :=
  ⟨_, _, _, rfl, rfl, rfl, rfl, rfl⟩

/-- C6, amended: the lease constructor stores the packet that `request_tape_packet` granted.
For every sequence of calls of `getTapePtr`, `operator*` and `operator->` (no call of
`set_tape_packet`) the packet handed to `release_tape_packet` at the end of scope is the
granted one; a call `set_tape_packet(newtp)` replaces the held packet, and after a sequence
whose last `set_tape_packet` call has the argument `newtp` the end of scope hands `newtp`
to `release_tape_packet`. -/
theorem C6_released_packet (thread : Nat) (o o1 : World Tape) (l : tape_scoped_lock)
    (hc : tape_scoped_lock.construct thread o = .ok (l, o1)) :
    request_tape_packet thread o = .ok (l.tp, o1) ∧
    (∀ ops : List LeaseOp, (∀ op ∈ ops, op.isSet = false) → ∀ w : World Tape,
      (applyOps l ops).tp = l.tp ∧
      (applyOps l ops).destruct w = (release_tape_packet l.tp w).map Prod.snd) ∧
    (∀ (pre post : List LeaseOp) (newtp : Nat), (∀ op ∈ post, op.isSet = false) →
      ∀ w : World Tape,
      (applyOps l (pre ++ LeaseOp.set_tape_packet newtp :: post)).tp = newtp ∧
      (applyOps l (pre ++ LeaseOp.set_tape_packet newtp :: post)).destruct w =
        (release_tape_packet newtp w).map Prod.snd) := by
  have hkeep : ∀ (ops : List LeaseOp) (k : tape_scoped_lock),
      (∀ op ∈ ops, op.isSet = false) → applyOps k ops = k := by
    intro ops
    induction ops with
    | nil => intro k _; rfl
    | cons op ops ih =>
      intro k hops
      have h1 : LeaseOp.apply k op = k := by
        have := hops op (List.mem_cons_self _ _)
        cases op <;> first | rfl | simp [LeaseOp.isSet] at this
      simp only [applyOps, List.foldl_cons, h1]
      exact ih k (fun op1 h => hops op1 (List.mem_cons_of_mem _ h))
  have hdes : ∀ (k : tape_scoped_lock) (w : World Tape),
      k.destruct w = (release_tape_packet k.tp w).map Prod.snd := by
    intro k w
    simp only [tape_scoped_lock.destruct]
    cases release_tape_packet k.tp w with
    | error e => rfl
    | ok r => rfl
  refine ⟨?_, ?_, ?_⟩
  · simp only [tape_scoped_lock.construct] at hc
    cases hr : request_tape_packet thread o with
    | error e => simp [hr] at hc
    | ok r =>
      obtain ⟨p, o2⟩ := r
      simp only [hr, Except.ok.injEq, Prod.mk.injEq] at hc
      obtain ⟨hl, ho⟩ := hc
      subst hl
      subst ho
      rfl
  · intro ops hops w
    rw [hkeep ops l hops]
    exact ⟨rfl, hdes l w⟩
  · intro pre post newtp hpost w
    have happ : applyOps l (pre ++ LeaseOp.set_tape_packet newtp :: post) =
        (⟨newtp⟩ : tape_scoped_lock) := by
      have h2 := hkeep post (LeaseOp.apply (List.foldl LeaseOp.apply l pre)
        (LeaseOp.set_tape_packet newtp)) hpost
      simp only [applyOps] at h2
      simp only [applyOps, List.foldl_append, List.foldl_cons, h2]
      rfl
    rw [happ]
    exact ⟨rfl, hdes _ w⟩

/-- A lease for C6: thread 5 is granted packet 0 of a pool of two and calls `getTapePtr` and
`operator->`; alternatively it calls `set_tape_packet` with packet 1 and then `operator*`. -/
theorem C6_released_packet_witness :
    (applyOps ⟨0⟩ [.getTapePtr, .arrow]).tp = 0 ∧
    (applyOps ⟨0⟩ ([.getTapePtr] ++ LeaseOp.set_tape_packet 1 :: [.star])).tp = 1 :=
  let h := C6_released_packet 5
    (⟨⟨[0, 0], [⟨0, 0⟩, ⟨1, 1⟩], ⟨some 2, [0, 1]⟩⟩, ⟨[]⟩⟩ : World Nat) _ ⟨0⟩ rfl
  ⟨(h.2.1 [.getTapePtr, .arrow] (by decide)
      ⟨⟨[0, 0], [⟨0, 0⟩, ⟨1, 1⟩], ⟨some 2, [1]⟩⟩, ⟨[(5, 0)]⟩⟩).1,
   (h.2.2 [.getTapePtr] [.star] 1 (by decide)
      ⟨⟨[0, 0], [⟨0, 0⟩, ⟨1, 1⟩], ⟨some 2, [1]⟩⟩, ⟨[(5, 0)]⟩⟩).1⟩

/-- C8, counterexample: in a pool of one, thread 3 has been granted packet 0 and thread 7 has
never been granted a lease; `thread_num()` returns 0 on thread 7, the same value as on
thread 3, which is the `thread_num` of packet 0. -/
theorem C8_thread_num_unbound_counterexample :
    ∃ s : System Nat, exec 0 1 [.acquire 3] = .ok s ∧
      thread_num 7 s.world = 0 ∧ thread_num 3 s.world = 0 ∧
      s.live.map (held_thread_num s.world) = [some 0] :=
  ⟨_, rfl, rfl, rfl, rfl⟩

/-- C8, amended: on a thread on which no lease has ever been granted `thread_num()` returns
0, the value of the zero-initialised thread-local element; for every pool of at least one
packet this is the `thread_num` of packet 0, so it is not distinguishable from a valid
slot index. -/
theorem C8_thread_num_without_grant_is_zero [Inhabited Tape] (tape : Tape) (N : Nat)
    (es : List Step) (s : System Tape) (hs : exec tape N es = .ok s) (thread : Nat)
    (hnever : ∀ e ∈ es, e ≠ Step.acquire thread) :
    thread_num thread s.world = 0 ∧
    (1 ≤ N → ∃ pk, s.world.MTM.all_tape_packets[0]? = some pk ∧
      pk.thread_num = thread_num thread s.world) := by
  have h := inv_exec es hs
  obtain ⟨s0, h0, -, -, hc, -⟩ := inv_fresh tape N
  have hrun : run s0 es = .ok s := by
    simpa only [exec, h0] using hs
  have hz : thread_num thread s.world = 0 := by
    rw [run_thread_num es thread hrun hnever]
    simp [thread_num, hc, combinable.local, combinable.empty]
  refine ⟨hz, fun hN => ⟨⟨0, 0⟩, ?_, hz.symm⟩⟩
  have h0N : 0 < N := hN
  simp [h.packets, List.getElem?_range h0N]

/-- An execution for C8: threads 3 and 4 take leases of a pool of two, thread 7 never does. -/
theorem C8_thread_num_without_grant_is_zero_witness :
    ∃ s : System Nat, exec 0 2 [.acquire 3, .acquire 4, .drop 0] = .ok s ∧
      thread_num 7 s.world = 0 ∧
      ∃ pk, s.world.MTM.all_tape_packets[0]? = some pk ∧
        pk.thread_num = thread_num 7 s.world :=
  ⟨_, rfl,
    (C8_thread_num_without_grant_is_zero 0 2 [.acquire 3, .acquire 4, .drop 0] _ rfl 7
      (by decide)).1,
    (C8_thread_num_without_grant_is_zero 0 2 [.acquire 3, .acquire 4, .drop 0] _ rfl 7
      (by decide)).2 (by decide)⟩

end claims

end TBB4CppAD
